import Mathlib

/-!
# FreshType typing-session engine: formal model

Shallow embedding of the typing-session engine of the FreshType repository
(`src/components/typing-test.tsx`, the current version of the component).
Strings are modelled as `List Char`, the per-character verdict array as a
`List CharState`, timestamps (`Date.now()` values, milliseconds) as `Int`,
and the displayed elapsed seconds as `ℚ`.

JavaScript array-element assignment `a[i] = v` at an index `i ≥ a.length`
extends the array; the intervening empty slots are modelled as `untouched`
(the program never reads a slot it skipped at an in-passage index, and the
claims observe skipped slots only through the array's length).
-/

namespace FreshType

/-- The three per-character verdicts (`type CharState` in the source). -/
inductive CharState where
  | untouched
  | correct
  | incorrect
deriving DecidableEq, Repr

/-- The React component state of `TypingTest` that the claims are about:
verdict array, typed buffer, and the timing state (`isTyping`, `startTime`,
`elapsedTime`, `hasStarted`, `isPaused`, `pausedAtRef`, `totalPausedMsRef`). -/
structure Session where
  charStates : List CharState
  userInput : List Char
  isTyping : Bool
  startTime : Option Int
  elapsedTime : ℚ
  hasStarted : Bool
  isPaused : Bool
  pausedAt : Option Int
  totalPausedMs : Int
deriving DecidableEq, Repr

/-- `normalizeCharForCompare` from the source: maps visually equivalent
punctuation and space variants (including newline and carriage return) to a
canonical character; every other character is returned unchanged. -/
def normalizeCharForCompare (c : Char) : Char :=
  if c = '\u00A0' then ' '
  else if c = '\n' then ' '
  else if c = '\r' then ' '
  else if c = '’' then '\x27'
  else if c = '‘' then '\x27'
  else if c = '′' then '\x27'
  else if c = '“' then '\x22'
  else if c = '”' then '\x22'
  else if c = '–' then '-'
  else if c = '—' then '-'
  else if c = 'ʼ' then '\x27'
  else c

/-- Reading `charStates[i]` the way the program observes it (an absent or
empty slot renders like `untouched`). -/
def stateAt (l : List CharState) (i : Nat) : CharState :=
  l.getD i CharState.untouched

/-- JavaScript array-element assignment `a[i] = v`: in range it overwrites,
out of range it extends the array (empty slots modelled as `untouched`). -/
def jsArraySet (l : List CharState) (i : Nat) (v : CharState) : List CharState :=
  if i < l.length then l.set i v
  else l ++ List.replicate (i - l.length) CharState.untouched ++ [v]

/-- The verdict the append branch of `handleInputChange` assigns at
`charIdx`: at a passage newline/carriage-return the raw buffer character is
compared against `'\n'`, `'\r'`, `' '`; otherwise normalized characters are
compared. Call sites guarantee `charIdx` is in range of both lists, so the
`getD` defaults are never observed. -/
def charVerdict (text finalValue : List Char) (charIdx : Nat) : CharState :=
  if text.getD charIdx ' ' = '\n' ∨ text.getD charIdx ' ' = '\r' then
    if finalValue.getD charIdx ' ' = '\n' ∨ finalValue.getD charIdx ' ' = '\r' ∨
        finalValue.getD charIdx ' ' = ' ' then
      CharState.correct
    else CharState.incorrect
  else
    if normalizeCharForCompare (finalValue.getD charIdx ' ') =
        normalizeCharForCompare (text.getD charIdx ' ') then
      CharState.correct
    else CharState.incorrect

/-- The append loop of `handleInputChange`: assign `charVerdict` at each
index of `idxs` that is below the passage length (the loop runs over the
appended indices in ascending order). -/
def setVerdicts (text finalValue : List Char) : List CharState → List Nat → List CharState
  | states, [] => states
  | states, i :: rest =>
    setVerdicts text finalValue
      (if i < text.length then jsArraySet states i (charVerdict text finalValue i) else states)
      rest

/-- The deletion loop of `handleInputChange`: reset every index of `idxs`
to `untouched` (no bounds guard in the source). -/
def clearRange : List CharState → List Nat → List CharState
  | states, [] => states
  | states, i :: rest => clearRange (jsArraySet states i CharState.untouched) rest

/-- The newline auto-substitution of `handleInputChange` (source lines
244-259): when the buffer grows and the passage character at the old cursor
is a newline/carriage return, a typed space becomes a newline, and any
other typed character gets a space inserted before it. -/
def computeFinalValue (text userInput typedValue : List Char) : List Char :=
  if userInput.length < typedValue.length then
    if text.getD userInput.length ' ' = '\n' ∨ text.getD userInput.length ' ' = '\r' then
      if typedValue.getD userInput.length ' ' = ' ' then
        typedValue.take userInput.length ++ '\n' :: typedValue.drop (userInput.length + 1)
      else if typedValue.getD userInput.length ' ' ≠ '\n' ∧
          typedValue.getD userInput.length ' ' ≠ '\r' then
        userInput ++ ' ' :: typedValue.drop userInput.length
      else typedValue
    else typedValue
  else typedValue

/-- The initial component state: all verdicts `untouched`, empty buffer,
no timing accumulated. -/
def initSession (text : List Char) : Session where
  charStates := List.replicate text.length CharState.untouched
  userInput := []
  isTyping := false
  startTime := none
  elapsedTime := 0
  hasStarted := false
  isPaused := false
  pausedAt := none
  totalPausedMs := 0

/-- `handleInputChange` from the source (the `applyInput` operation of the
spec): overflow guard, session start, newline auto-substitution, then the
append or deletion loop; stores the (possibly substituted) buffer. -/
def handleInputChange (text : List Char) (now : Int) (s : Session)
    (typedValue : List Char) : Session :=
  if text.length ≤ s.userInput.length ∧ s.userInput.length < typedValue.length then
    { s with isTyping := false }
  else
    let s1 :=
      if ¬s.hasStarted ∧ 0 < typedValue.length then
        { s with hasStarted := true, isTyping := true,
                 startTime := if s.startTime = none then some now else s.startTime }
      else s
    let finalValue := computeFinalValue text s.userInput typedValue
    let newCharStates :=
      if s.userInput.length < finalValue.length then
        setVerdicts text finalValue s.charStates
          (List.range' s.userInput.length (finalValue.length - s.userInput.length))
      else
        clearRange s.charStates
          (List.range' finalValue.length (s.userInput.length - finalValue.length))
    { s1 with charStates := newCharStates, userInput := finalValue }

/-- `restartTest` from the source: clears typing flag, start time, elapsed
time, buffer and verdicts. It does not touch `hasStarted`, `isPaused`,
`pausedAtRef` or `totalPausedMsRef`. -/
def restartTest (text : List Char) (s : Session) : Session :=
  { s with isTyping := false, startTime := none, elapsedTime := 0,
           userInput := [],
           charStates := List.replicate text.length CharState.untouched }

/-- `resumeFromPause` from the source: a completed session only clears the
paused flag; otherwise the pause interval is added to `totalPausedMsRef`
(the source tests `pausedAtRef.current` for truthiness, so a zero timestamp
is treated as absent), the pause timestamp is cleared, and typing resumes
if the session had started. -/
def resumeFromPause (text : List Char) (now : Int) (s : Session) : Session :=
  if text.length ≤ s.userInput.length then
    { s with isPaused := false }
  else
    let s1 :=
      match s.pausedAt with
      | some t =>
        if t ≠ 0 then
          { s with totalPausedMs := s.totalPausedMs + (now - t), pausedAt := none }
        else s
      | none => s
    let s2 := { s1 with isPaused := false }
    if ¬s2.isTyping ∧ s2.hasStarted then { s2 with isTyping := true } else s2

/-- The Escape branch of the `onKeyDown` handler: toggle pause. Pausing
records `pausedAtRef = now` with no phase guard; resuming calls
`resumeFromPause`. -/
def escKey (text : List Char) (now : Int) (s : Session) : Session :=
  if ¬s.isPaused then { s with pausedAt := some now, isPaused := true }
  else resumeFromPause text now s

/-- The elapsed-time tick effect: while typing and not paused (and with a
truthy start time), recompute `elapsedTime = (now - startTime - pausedMs) / 1000`. -/
def tickElapsed (now : Int) (s : Session) : Session :=
  match s.startTime with
  | some t =>
    if s.isTyping ∧ ¬s.isPaused ∧ t ≠ 0 then
      { s with elapsedTime := ((now - t - s.totalPausedMs : Int) : ℚ) / 1000 }
    else s
  | none => s

/-- The completion effect: once the cursor reaches the passage end, stop
the typing flag. -/
def finishEffect (text : List Char) (s : Session) : Session :=
  if text.length ≤ s.userInput.length then { s with isTyping := false } else s

/-- JavaScript `Math.round` on the values this program produces. -/
def jsRound (q : ℚ) : ℤ := ⌊q + 1 / 2⌋

/-- `charStates.slice(0, currentIndex).filter(s => s === 'correct').length`. -/
def correctCount (s : Session) : Nat :=
  ((s.charStates.take s.userInput.length).filter fun c => c = CharState.correct).length

/-- The CPM readout (source line 388):
`Math.round(correctPrefix / Math.max(1, elapsedTime / 60))`. -/
def cpmDisplay (s : Session) : ℤ :=
  jsRound ((correctCount s : ℚ) / max 1 (s.elapsedTime / 60))

/-- All states a session can reach: the initial state, closed under input
events, restart, the Escape pause/resume toggle, the elapsed-time tick, and
the completion effect. -/
inductive Reachable (text : List Char) : Session → Prop where
  | init : Reachable text (initSession text)
  | input (now : Int) (tv : List Char) {s : Session} :
      Reachable text s → Reachable text (handleInputChange text now s tv)
  | restart {s : Session} : Reachable text s → Reachable text (restartTest text s)
  | esc (now : Int) {s : Session} : Reachable text s → Reachable text (escKey text now s)
  | tick (now : Int) {s : Session} : Reachable text s → Reachable text (tickElapsed now s)
  | finish {s : Session} : Reachable text s → Reachable text (finishEffect text s)

/-- The verdict-partition invariant, in the form that is inductive: an
entry is non-`untouched` exactly at indices below both the cursor and the
passage length. -/
def verdictInvariant (text : List Char) (s : Session) : Prop :=
  ∀ i, stateAt s.charStates i ≠ CharState.untouched ↔
    (i < s.userInput.length ∧ i < text.length)

/-! ## Basic lemmas about the array operations -/

theorem stateAt_jsArraySet (l : List CharState) (i j : Nat) (v : CharState) :
    stateAt (jsArraySet l i v) j = if j = i then v else stateAt l j := by
  unfold jsArraySet stateAt
  by_cases hil : i < l.length
  · rw [if_pos hil]
    by_cases hji : j = i
    · subst hji
      simp [List.getElem?_set_self (by omega : j < l.length)]
    · simp [List.getElem?_set_ne (by omega : i ≠ j), hji]
  · rw [if_neg hil]
    by_cases hji : j = i
    · subst hji
      rw [if_pos rfl]
      rw [List.getD_eq_getElem?_getD, List.append_assoc]
      rw [List.getElem?_append_right (by omega : l.length ≤ j)]
      rw [List.getElem?_append_right (by simp)]
      simp
    · rw [if_neg hji]
      by_cases hjl : j < l.length
      · simp [List.getElem?_append_left hjl]
      · rw [List.getD_eq_getElem?_getD, List.getD_eq_getElem?_getD, List.append_assoc]
        rw [List.getElem?_append_right (by omega : l.length ≤ j)]
        rw [List.getElem?_eq_none (by omega : l.length ≤ j)]
        by_cases hj2 : j - l.length < i - l.length
        · rw [List.getElem?_append_left (by simpa using hj2)]
          simp [List.getElem?_replicate, hj2]
        · rw [List.getElem?_append_right (by simpa using hj2)]
          simp only [List.length_replicate]
          rw [List.getElem?_eq_none
            (by simp only [List.length_cons, List.length_nil]; omega)]

theorem length_jsArraySet (l : List CharState) (i : Nat) (v : CharState) :
    (jsArraySet l i v).length = max l.length (i + 1) := by
  unfold jsArraySet
  split
  · simp; omega
  · simp; omega

theorem stateAt_setVerdicts_not_mem (t fv : List Char) (st : List CharState)
    (idxs : List Nat) (j : Nat) (h : j ∉ idxs) :
    stateAt (setVerdicts t fv st idxs) j = stateAt st j := by
  induction idxs generalizing st with
  | nil => rfl
  | cons i rest ih =>
    have hji : j ≠ i := by intro e; exact h (by simp [e])
    have hrest : j ∉ rest := fun hr => h (List.mem_cons_of_mem _ hr)
    simp only [setVerdicts]
    rw [ih _ hrest]
    split
    · rw [stateAt_jsArraySet, if_neg hji]
    · rfl

theorem stateAt_setVerdicts_mem (t fv : List Char) (j : Nat) (hj : j < t.length) :
    ∀ (idxs : List Nat) (st : List CharState), idxs.Nodup → j ∈ idxs →
      stateAt (setVerdicts t fv st idxs) j = charVerdict t fv j := by
  intro idxs
  induction idxs with
  | nil => intro st _ hm; cases hm
  | cons i rest ih =>
    intro st hnd hm
    simp only [setVerdicts]
    rcases List.mem_cons.mp hm with rfl | hr
    · have hrest : j ∉ rest := (List.nodup_cons.mp hnd).1
      rw [stateAt_setVerdicts_not_mem _ _ _ _ _ hrest]
      rw [if_pos hj, stateAt_jsArraySet, if_pos rfl]
    · exact ih _ (List.nodup_cons.mp hnd).2 hr

theorem stateAt_setVerdicts_big (t fv : List Char) (st : List CharState)
    (idxs : List Nat) (j : Nat) (hj : t.length ≤ j) :
    stateAt (setVerdicts t fv st idxs) j = stateAt st j := by
  induction idxs generalizing st with
  | nil => rfl
  | cons i rest ih =>
    simp only [setVerdicts]
    rw [ih _]
    split
    · next hi => rw [stateAt_jsArraySet, if_neg (by omega)]
    · rfl

theorem stateAt_clearRange_not_mem (st : List CharState) (idxs : List Nat) (j : Nat)
    (h : j ∉ idxs) : stateAt (clearRange st idxs) j = stateAt st j := by
  induction idxs generalizing st with
  | nil => rfl
  | cons i rest ih =>
    have hji : j ≠ i := by intro e; exact h (by simp [e])
    have hrest : j ∉ rest := fun hr => h (List.mem_cons_of_mem _ hr)
    simp only [clearRange]
    rw [ih _ hrest, stateAt_jsArraySet, if_neg hji]

theorem stateAt_clearRange_mem (j : Nat) :
    ∀ (idxs : List Nat) (st : List CharState), j ∈ idxs →
      stateAt (clearRange st idxs) j = CharState.untouched := by
  intro idxs
  induction idxs with
  | nil => intro st hm; cases hm
  | cons i rest ih =>
    intro st hm
    simp only [clearRange]
    by_cases hr : j ∈ rest
    · exact ih _ hr
    · rcases List.mem_cons.mp hm with rfl | hr2
      · rw [stateAt_clearRange_not_mem _ _ _ hr, stateAt_jsArraySet, if_pos rfl]
      · exact absurd hr2 hr

theorem length_setVerdicts_eq (t fv : List Char) (st : List CharState)
    (idxs : List Nat) (h : t.length ≤ st.length) :
    (setVerdicts t fv st idxs).length = st.length := by
  induction idxs generalizing st with
  | nil => rfl
  | cons i rest ih =>
    simp only [setVerdicts]
    split
    · next hi =>
      have hlen : (jsArraySet st i (charVerdict t fv i)).length = st.length := by
        rw [length_jsArraySet]; omega
      rw [ih _ (by omega), hlen]
    · exact ih _ h

theorem length_clearRange_eq (st : List CharState) (idxs : List Nat)
    (h : ∀ i ∈ idxs, i < st.length) :
    (clearRange st idxs).length = st.length := by
  induction idxs generalizing st with
  | nil => rfl
  | cons i rest ih =>
    simp only [clearRange]
    have hi : i < st.length := h i (by simp)
    have hlen : (jsArraySet st i CharState.untouched).length = st.length := by
      rw [length_jsArraySet]; omega
    rw [ih _ (by intro k hk; rw [hlen]; exact h k (by simp [hk])), hlen]

theorem charVerdict_ne_untouched (t fv : List Char) (i : Nat) :
    charVerdict t fv i ≠ CharState.untouched := by
  unfold charVerdict
  split <;> split <;> simp

/-! ## Lemmas about `computeFinalValue` and `handleInputChange` -/

theorem computeFinalValue_eq_of_le (t u tv : List Char) (h : tv.length ≤ u.length) :
    computeFinalValue t u tv = tv := by
  unfold computeFinalValue
  rw [if_neg (by omega)]

theorem length_computeFinalValue_lt (t u tv : List Char) (h : u.length < tv.length) :
    u.length < (computeFinalValue t u tv).length := by
  unfold computeFinalValue
  rw [if_pos h]
  split
  · split
    · simp only [List.length_append, List.length_take, List.length_cons, List.length_drop]
      omega
    · split
      · simp only [List.length_append, List.length_cons, List.length_drop]
        omega
      · exact h
  · exact h

theorem handleInputChange_overflow (text : List Char) (now : Int) (s : Session)
    (tv : List Char) (h1 : text.length ≤ s.userInput.length)
    (h2 : s.userInput.length < tv.length) :
    handleInputChange text now s tv = { s with isTyping := false } := by
  simp only [handleInputChange, if_pos (And.intro h1 h2)]

theorem handleInputChange_userInput (text : List Char) (now : Int) (s : Session)
    (tv : List Char)
    (h : ¬(text.length ≤ s.userInput.length ∧ s.userInput.length < tv.length)) :
    (handleInputChange text now s tv).userInput = computeFinalValue text s.userInput tv := by
  simp only [handleInputChange, if_neg h]

theorem handleInputChange_charStates (text : List Char) (now : Int) (s : Session)
    (tv : List Char)
    (h : ¬(text.length ≤ s.userInput.length ∧ s.userInput.length < tv.length)) :
    (handleInputChange text now s tv).charStates =
      if s.userInput.length < (computeFinalValue text s.userInput tv).length then
        setVerdicts text (computeFinalValue text s.userInput tv) s.charStates
          (List.range' s.userInput.length
            ((computeFinalValue text s.userInput tv).length - s.userInput.length))
      else
        clearRange s.charStates
          (List.range' (computeFinalValue text s.userInput tv).length
            (s.userInput.length - (computeFinalValue text s.userInput tv).length)) := by
  simp only [handleInputChange, if_neg h]

theorem stateAt_replicate_untouched (n i : Nat) :
    stateAt (List.replicate n CharState.untouched) i = CharState.untouched := by
  unfold stateAt
  rw [List.getD_eq_getElem?_getD, List.getElem?_replicate]
  split <;> rfl

/-! ## The verdict-partition invariant is preserved by every operation -/

theorem verdictInvariant_initSession (text : List Char) :
    verdictInvariant text (initSession text) := by
  intro i
  rw [show (initSession text).charStates = List.replicate text.length CharState.untouched from rfl,
      show (initSession text).userInput = [] from rfl, stateAt_replicate_untouched]
  simp

theorem verdictInvariant_restartTest (text : List Char) (s : Session) :
    verdictInvariant text (restartTest text s) := by
  intro i
  rw [show (restartTest text s).charStates = List.replicate text.length CharState.untouched from rfl,
      show (restartTest text s).userInput = [] from rfl, stateAt_replicate_untouched]
  simp

theorem escKey_fields (t : List Char) (now : Int) (s : Session) :
    (escKey t now s).charStates = s.charStates ∧ (escKey t now s).userInput = s.userInput := by
  unfold escKey resumeFromPause
  split
  · exact ⟨rfl, rfl⟩
  · split
    · exact ⟨rfl, rfl⟩
    · cases hp : s.pausedAt
      · simp only []
        split_ifs <;> simp
      · simp only []
        split_ifs <;> simp

theorem tickElapsed_fields (now : Int) (s : Session) :
    (tickElapsed now s).charStates = s.charStates ∧
    (tickElapsed now s).userInput = s.userInput := by
  unfold tickElapsed
  cases hp : s.startTime
  · exact ⟨rfl, rfl⟩
  · simp only []
    split_ifs <;> simp

theorem finishEffect_fields (t : List Char) (s : Session) :
    (finishEffect t s).charStates = s.charStates ∧
    (finishEffect t s).userInput = s.userInput := by
  unfold finishEffect
  split <;> exact ⟨rfl, rfl⟩

theorem verdictInvariant_handleInputChange (text : List Char) (now : Int) (s : Session)
    (tv : List Char) (h : verdictInvariant text s) :
    verdictInvariant text (handleInputChange text now s tv) := by
  by_cases hov : text.length ≤ s.userInput.length ∧ s.userInput.length < tv.length
  · rw [handleInputChange_overflow _ _ _ _ hov.1 hov.2]
    intro i
    exact h i
  · intro i
    rw [handleInputChange_userInput _ _ _ _ hov, handleInputChange_charStates _ _ _ _ hov]
    by_cases hgrow : s.userInput.length < (computeFinalValue text s.userInput tv).length
    · rw [if_pos hgrow]
      rcases Nat.lt_or_ge i s.userInput.length with hi | hi
      · rw [stateAt_setVerdicts_not_mem _ _ _ _ _ (by rw [List.mem_range'_1]; omega)]
        rw [h i]
        exact ⟨fun ⟨a, b⟩ => ⟨by omega, b⟩, fun ⟨a, b⟩ => ⟨by omega, b⟩⟩
      · by_cases hit : i < text.length
        · by_cases hifv : i < (computeFinalValue text s.userInput tv).length
          · rw [stateAt_setVerdicts_mem text _ i hit _ _ (List.nodup_range' _ _)
              (by rw [List.mem_range'_1]; omega)]
            simp only [ne_eq, charVerdict_ne_untouched, not_false_eq_true, true_iff]
            exact ⟨hifv, hit⟩
          · rw [stateAt_setVerdicts_not_mem _ _ _ _ _ (by rw [List.mem_range'_1]; omega)]
            rw [h i]
            exact ⟨fun ⟨a, _⟩ => absurd a (by omega), fun ⟨a, _⟩ => absurd a (by omega)⟩
        · rw [stateAt_setVerdicts_big _ _ _ _ _ (by omega)]
          rw [h i]
          exact ⟨fun ⟨_, b⟩ => absurd b (by omega), fun ⟨_, b⟩ => absurd b (by omega)⟩
    · rw [if_neg hgrow]
      by_cases hifv : i < (computeFinalValue text s.userInput tv).length
      · rw [stateAt_clearRange_not_mem _ _ _ (by rw [List.mem_range'_1]; omega)]
        rw [h i]
        exact ⟨fun ⟨a, b⟩ => ⟨by omega, b⟩, fun ⟨a, b⟩ => ⟨by omega, b⟩⟩
      · by_cases hio : i < s.userInput.length
        · rw [stateAt_clearRange_mem i _ _ (by rw [List.mem_range'_1]; omega)]
          exact ⟨fun hc => absurd rfl hc, fun ⟨a, _⟩ => absurd a (by omega)⟩
        · rw [stateAt_clearRange_not_mem _ _ _ (by rw [List.mem_range'_1]; omega)]
          rw [h i]
          exact ⟨fun ⟨a, _⟩ => absurd a (by omega), fun ⟨a, _⟩ => absurd a (by omega)⟩

theorem verdictInvariant_of_reachable {text : List Char} {s : Session}
    (h : Reachable text s) : verdictInvariant text s := by
  induction h with
  | init => exact verdictInvariant_initSession text
  | input now tv _ ih => exact verdictInvariant_handleInputChange _ now _ tv ih
  | restart _ _ => exact verdictInvariant_restartTest _ _
  | esc now _ ih =>
    intro i
    rw [(escKey_fields _ now _).1, (escKey_fields _ now _).2]
    exact ih i
  | tick now _ ih =>
    intro i
    rw [(tickElapsed_fields now _).1, (tickElapsed_fields now _).2]
    exact ih i
  | finish _ ih =>
    intro i
    rw [(finishEffect_fields _ _).1, (finishEffect_fields _ _).2]
    exact ih i

/-- Characterization of an appending `handleInputChange` call (cursor inside
the passage, strictly growing raw input): the stored buffer is the
auto-substituted value, verdicts below the old cursor are untouched by the
call, and every appended in-passage position receives `charVerdict`. -/
theorem stateAt_handleInputChange_grow (text : List Char) (now : Int) (s : Session)
    (tv : List Char) (hin : s.userInput.length < text.length)
    (hgrow : s.userInput.length < tv.length) :
    (handleInputChange text now s tv).userInput = computeFinalValue text s.userInput tv ∧
    (∀ i, i < s.userInput.length →
      stateAt (handleInputChange text now s tv).charStates i = stateAt s.charStates i) ∧
    (∀ i, s.userInput.length ≤ i → i < (computeFinalValue text s.userInput tv).length →
      i < text.length →
      stateAt (handleInputChange text now s tv).charStates i =
        charVerdict text (computeFinalValue text s.userInput tv) i) ∧
    (∀ i, (computeFinalValue text s.userInput tv).length ≤ i →
      stateAt (handleInputChange text now s tv).charStates i = stateAt s.charStates i) := by
  have hov : ¬(text.length ≤ s.userInput.length ∧ s.userInput.length < tv.length) :=
    fun hc => absurd hin (by omega)
  have hn := length_computeFinalValue_lt text s.userInput tv hgrow
  refine ⟨handleInputChange_userInput _ _ _ _ hov, ?_, ?_, ?_⟩
  · intro i hi
    rw [handleInputChange_charStates _ _ _ _ hov, if_pos hn]
    exact stateAt_setVerdicts_not_mem _ _ _ _ _ (by rw [List.mem_range'_1]; omega)
  · intro i h1 h2 h3
    rw [handleInputChange_charStates _ _ _ _ hov, if_pos hn]
    exact stateAt_setVerdicts_mem text _ i h3 _ _ (List.nodup_range' _ _)
      (by rw [List.mem_range'_1]; omega)
  · intro i hi
    rw [handleInputChange_charStates _ _ _ _ hov, if_pos hn]
    exact stateAt_setVerdicts_not_mem _ _ _ _ _ (by rw [List.mem_range'_1]; omega)

/-- Characterization of a shrinking `handleInputChange` call: the supplied
buffer is stored unchanged, verdicts below the new length and at or above the
old length are untouched by the call, and positions from the new length up to
the old length are reset to `untouched`. -/
theorem handleInputChange_shrink (text : List Char) (now : Int) (s : Session) (tv : List Char)
    (h : tv.length < s.userInput.length) :
    (handleInputChange text now s tv).userInput = tv ∧
    (∀ i, i < tv.length →
      stateAt (handleInputChange text now s tv).charStates i = stateAt s.charStates i) ∧
    (∀ i, tv.length ≤ i → i < s.userInput.length →
      stateAt (handleInputChange text now s tv).charStates i = CharState.untouched) ∧
    (∀ i, s.userInput.length ≤ i →
      stateAt (handleInputChange text now s tv).charStates i = stateAt s.charStates i) := by
  have hov : ¬(text.length ≤ s.userInput.length ∧ s.userInput.length < tv.length) :=
    fun hc => absurd hc.2 (by omega)
  have hfv : computeFinalValue text s.userInput tv = tv :=
    computeFinalValue_eq_of_le _ _ _ (by omega)
  have hng : ¬s.userInput.length < (computeFinalValue text s.userInput tv).length := by
    rw [hfv]; omega
  refine ⟨?_, ?_, ?_, ?_⟩
  · rw [handleInputChange_userInput _ _ _ _ hov, hfv]
  · intro i hi
    rw [handleInputChange_charStates _ _ _ _ hov, if_neg hng, hfv]
    exact stateAt_clearRange_not_mem _ _ _ (by rw [List.mem_range'_1]; omega)
  · intro i h1 h2
    rw [handleInputChange_charStates _ _ _ _ hov, if_neg hng, hfv]
    exact stateAt_clearRange_mem i _ _ (by rw [List.mem_range'_1]; omega)
  · intro i hi
    rw [handleInputChange_charStates _ _ _ _ hov, if_neg hng, hfv]
    exact stateAt_clearRange_not_mem _ _ _ (by rw [List.mem_range'_1]; omega)

theorem handleInputChange_hasStarted (text : List Char) (now : Int) (s : Session)
    (tv : List Char)
    (hov : ¬(text.length ≤ s.userInput.length ∧ s.userInput.length < tv.length))
    (hlen : 0 < tv.length) :
    (handleInputChange text now s tv).hasStarted = true := by
  simp only [handleInputChange, if_neg hov]
  by_cases hh : s.hasStarted
  · rw [if_neg (by simp [hh])]
    exact hh
  · rw [if_pos ⟨by simpa using hh, hlen⟩]

/-- If the buffer supplied to `handleInputChange` equals the stored buffer
(and a nonempty buffer implies the session has started), the call changes
nothing at all. -/
theorem handleInputChange_self (text : List Char) (now : Int) (s : Session) (tv : List Char)
    (hu : s.userInput = tv) (hs : 0 < tv.length → s.hasStarted = true) :
    handleInputChange text now s tv = s := by
  have hlen : s.userInput.length = tv.length := by rw [hu]
  have hov : ¬(text.length ≤ s.userInput.length ∧ s.userInput.length < tv.length) :=
    fun hc => absurd hc.2 (by omega)
  have hfv : computeFinalValue text s.userInput tv = tv :=
    computeFinalValue_eq_of_le _ _ _ (by omega)
  have hc : ¬(¬s.hasStarted ∧ 0 < tv.length) := by
    rintro ⟨a, b⟩
    exact a (hs b)
  simp only [handleInputChange, if_neg hov, if_neg hc, hfv, hlen, lt_irrefl, and_false,
    if_false, Nat.sub_self, List.range'_zero]
  show { s with charStates := clearRange s.charStates [], userInput := tv } = s
  rw [show clearRange s.charStates [] = s.charStates from rfl, ← hu]

theorem charVerdict_eq_or (t fv : List Char) (i : Nat) :
    charVerdict t fv i = CharState.correct ∨ charVerdict t fv i = CharState.incorrect := by
  unfold charVerdict
  split <;> split <;> simp

/-! ## Claims -/

/-- C1: at every reachable session state (so after every `applyInput` call,
restart, pause toggle or tick), for every passage position `i` the verdict
is `correct` or `incorrect` exactly when `i < cursor` (the length of the
typed buffer), and is `untouched` for every `i ≥ cursor`. -/
theorem verdict_partition_of_reachable {text : List Char} {s : Session}
    (h : Reachable text s) :
    ∀ i < text.length,
      ((stateAt s.charStates i = CharState.correct ∨
        stateAt s.charStates i = CharState.incorrect) ↔ i < s.userInput.length) ∧
      (s.userInput.length ≤ i → stateAt s.charStates i = CharState.untouched) := by
  intro i hi
  have hinv := verdictInvariant_of_reachable h i
  constructor
  · constructor
    · intro hci
      have hne : stateAt s.charStates i ≠ CharState.untouched := by
        rcases hci with h1 | h1 <;> rw [h1] <;> simp
      exact (hinv.mp hne).1
    · intro hc
      have hne := hinv.mpr ⟨hc, hi⟩
      cases hst : stateAt s.charStates i
      · exact absurd hst hne
      · exact Or.inl rfl
      · exact Or.inr rfl
  · intro hle
    by_contra hne
    have := (hinv.mp hne).1
    omega

theorem verdict_partition_witness :
    ((stateAt (handleInputChange ['c','a','t'] 5 (initSession ['c','a','t'])
        ['c','a']).charStates 1 = CharState.correct ∨
      stateAt (handleInputChange ['c','a','t'] 5 (initSession ['c','a','t'])
        ['c','a']).charStates 1 = CharState.incorrect) ↔
      1 < (handleInputChange ['c','a','t'] 5 (initSession ['c','a','t'])
        ['c','a']).userInput.length) ∧
    ((handleInputChange ['c','a','t'] 5 (initSession ['c','a','t'])
        ['c','a']).userInput.length ≤ 1 →
      stateAt (handleInputChange ['c','a','t'] 5 (initSession ['c','a','t'])
        ['c','a']).charStates 1 = CharState.untouched) :=
  verdict_partition_of_reachable (Reachable.input 5 ['c','a'] Reachable.init) 1 (by decide)

/-- C2 counterexample: a non-breaking space typed at a passage newline
position normalizes to the same character as the newline, yet the verdict
assigned is `incorrect` — the claimed pure-normalization rule fails at
structural positions. -/
theorem append_verdict_nbsp_counterexample :
    normalizeCharForCompare '\u00A0' = normalizeCharForCompare '\n' ∧
    (initSession ['a','\n','b']).userInput.length = 0 ∧
    (handleInputChange ['a','\n','b'] 0 (initSession ['a','\n','b'])
      ['a','\u00A0']).userInput = ['a','\u00A0'] ∧
    stateAt (handleInputChange ['a','\n','b'] 0 (initSession ['a','\n','b'])
      ['a','\u00A0']).charStates 1 = CharState.incorrect := by decide

/-- C2 corrected: on an appending call (from a cursor inside the passage),
verdicts before the old length are unchanged, every appended in-passage
position gets a `correct`/`incorrect` verdict, and at positions whose
passage character is not a newline/carriage return the verdict is `correct`
exactly when the final (auto-substituted) buffer character and the passage
character normalize equal. (At newline/carriage-return positions the raw
character is compared against newline, carriage return and space instead.) -/
theorem append_verdicts_characterized (text : List Char) (now : Int) (s : Session)
    (tv : List Char) (hin : s.userInput.length < text.length)
    (hgrow : s.userInput.length < tv.length) :
    (∀ i, i < s.userInput.length →
      stateAt (handleInputChange text now s tv).charStates i = stateAt s.charStates i) ∧
    (∀ i, s.userInput.length ≤ i → i < (computeFinalValue text s.userInput tv).length →
      i < text.length →
      (text.getD i ' ' ≠ '\n' ∧ text.getD i ' ' ≠ '\r' →
        (stateAt (handleInputChange text now s tv).charStates i = CharState.correct ↔
          normalizeCharForCompare ((computeFinalValue text s.userInput tv).getD i ' ') =
            normalizeCharForCompare (text.getD i ' '))) ∧
      (stateAt (handleInputChange text now s tv).charStates i = CharState.correct ∨
       stateAt (handleInputChange text now s tv).charStates i = CharState.incorrect)) := by
  obtain ⟨hu, hlow, happ, habove⟩ := stateAt_handleInputChange_grow text now s tv hin hgrow
  refine ⟨hlow, ?_⟩
  intro i h1 h2 h3
  rw [happ i h1 h2 h3]
  refine ⟨?_, charVerdict_eq_or _ _ _⟩
  rintro ⟨hn1, hn2⟩
  unfold charVerdict
  rw [if_neg (by push_neg; exact ⟨hn1, hn2⟩)]
  by_cases heq : normalizeCharForCompare ((computeFinalValue text s.userInput tv).getD i ' ') =
      normalizeCharForCompare (text.getD i ' ')
  · rw [if_pos heq]
    exact ⟨fun _ => heq, fun _ => rfl⟩
  · rw [if_neg heq]
    exact ⟨fun hc => absurd hc (by decide), fun hx => absurd hx heq⟩

theorem append_verdicts_characterized_witness :
    (initSession ['c']).userInput.length < (['c'] : List Char).length ∧
    (initSession ['c']).userInput.length < (['c'] : List Char).length ∧
    (stateAt (handleInputChange ['c'] 3 (initSession ['c']) ['c']).charStates 0 =
        CharState.correct ↔
      normalizeCharForCompare
          ((computeFinalValue ['c'] (initSession ['c']).userInput ['c']).getD 0 ' ') =
        normalizeCharForCompare ((['c'] : List Char).getD 0 ' ')) :=
  ⟨by decide, by decide,
    ((append_verdicts_characterized ['c'] 3 (initSession ['c']) ['c'] (by decide) (by decide)).2
      0 (by decide) (by decide) (by decide)).1 (by decide)⟩

/-- C3 counterexample: a carriage return typed at a passage newline position
is neither a space nor the structural character itself, yet the code accepts
it as `correct`. -/
theorem structural_cr_counterexample :
    ('\r' : Char) ≠ ' ' ∧ ('\r' : Char) ≠ '\n' ∧
    (['a','\n','b'] : List Char).getD 1 ' ' = '\n' ∧
    (handleInputChange ['a','\n','b'] 0
      (handleInputChange ['a','\n','b'] 0 (initSession ['a','\n','b']) ['a'])
      ['a','\r']).userInput = ['a','\r'] ∧
    stateAt (handleInputChange ['a','\n','b'] 0
      (handleInputChange ['a','\n','b'] 0 (initSession ['a','\n','b']) ['a'])
      ['a','\r']).charStates 1 = CharState.correct := by decide

/-- C3 corrected: at a passage position holding a newline or carriage
return, an appended buffer character yields verdict `correct` exactly when
it is a newline, a carriage return or a space (either structural character
is accepted, not only the passage's own), and `incorrect` exactly
otherwise; the character examined is the one in the final buffer after the
engine's newline auto-substitution. -/
theorem structural_position_verdict (text : List Char) (now : Int) (s : Session)
    (tv : List Char) (hin : s.userInput.length < text.length)
    (hgrow : s.userInput.length < tv.length) :
    ∀ i, s.userInput.length ≤ i → i < (computeFinalValue text s.userInput tv).length →
      i < text.length → (text.getD i ' ' = '\n' ∨ text.getD i ' ' = '\r') →
      (stateAt (handleInputChange text now s tv).charStates i = CharState.correct ↔
        ((computeFinalValue text s.userInput tv).getD i ' ' = '\n' ∨
         (computeFinalValue text s.userInput tv).getD i ' ' = '\r' ∨
         (computeFinalValue text s.userInput tv).getD i ' ' = ' ')) ∧
      (stateAt (handleInputChange text now s tv).charStates i = CharState.incorrect ↔
        ¬((computeFinalValue text s.userInput tv).getD i ' ' = '\n' ∨
          (computeFinalValue text s.userInput tv).getD i ' ' = '\r' ∨
          (computeFinalValue text s.userInput tv).getD i ' ' = ' ')) := by
  intro i h1 h2 h3 hstruct
  obtain ⟨hu, hlow, happ, habove⟩ := stateAt_handleInputChange_grow text now s tv hin hgrow
  rw [happ i h1 h2 h3]
  unfold charVerdict
  rw [if_pos hstruct]
  by_cases hr : (computeFinalValue text s.userInput tv).getD i ' ' = '\n' ∨
      (computeFinalValue text s.userInput tv).getD i ' ' = '\r' ∨
      (computeFinalValue text s.userInput tv).getD i ' ' = ' '
  · rw [if_pos hr]
    exact ⟨⟨fun _ => hr, fun _ => rfl⟩, ⟨fun hc => absurd hc (by decide), fun hx => absurd hr hx⟩⟩
  · rw [if_neg hr]
    exact ⟨⟨fun hc => absurd hc (by decide), fun hx => absurd hx hr⟩, ⟨fun _ => hr, fun _ => rfl⟩⟩

theorem structural_position_verdict_witness :
    (initSession ['\n']).userInput.length < (['\n'] : List Char).length ∧
    (stateAt (handleInputChange ['\n'] 2 (initSession ['\n']) [' ']).charStates 0 =
        CharState.correct ↔
      ((computeFinalValue ['\n'] (initSession ['\n']).userInput [' ']).getD 0 ' ' = '\n' ∨
       (computeFinalValue ['\n'] (initSession ['\n']).userInput [' ']).getD 0 ' ' = '\r' ∨
       (computeFinalValue ['\n'] (initSession ['\n']).userInput [' ']).getD 0 ' ' = ' ')) :=
  ⟨by decide,
    (structural_position_verdict ['\n'] 2 (initSession ['\n']) [' '] (by decide) (by decide)
      0 (by decide) (by decide) (by decide) (by decide)).1⟩

/-- C4 counterexample: a single input event that jumps from a cursor inside
the passage to beyond its end is accepted, so the typed buffer becomes
longer than the passage. -/
theorem overflow_paste_counterexample :
    (['a','b'] : List Char).length <
      (handleInputChange ['a','b'] 0 (initSession ['a','b']) ['a','b','c']).userInput.length ∧
    (handleInputChange ['a','b'] 0 (initSession ['a','b']) ['a','b','c']).userInput
      = ['a','b','c'] := by decide

/-- C4 corrected: extension attempts are ignored (buffer and verdicts kept,
only the typing flag cleared) precisely when the cursor is already at or
past the passage end; an event from a cursor inside the passage can extend
the buffer past the passage end. -/
theorem overflow_guard_at_end (text : List Char) (now : Int) (s : Session)
    (tv : List Char) (hend : text.length ≤ s.userInput.length)
    (hgrow : s.userInput.length < tv.length) :
    (handleInputChange text now s tv).charStates = s.charStates ∧
    (handleInputChange text now s tv).userInput = s.userInput ∧
    handleInputChange text now s tv = { s with isTyping := false } := by
  rw [handleInputChange_overflow text now s tv hend hgrow]
  exact ⟨rfl, rfl, rfl⟩

theorem overflow_guard_at_end_witness :
    (['a'] : List Char).length ≤
      (handleInputChange ['a'] 0 (initSession ['a']) ['a']).userInput.length ∧
    (handleInputChange ['a'] 0 (initSession ['a']) ['a']).userInput.length <
      (['a','b'] : List Char).length ∧
    (handleInputChange ['a'] 1 (handleInputChange ['a'] 0 (initSession ['a']) ['a'])
      ['a','b']).userInput = (handleInputChange ['a'] 0 (initSession ['a']) ['a']).userInput :=
  ⟨by decide, by decide,
    (overflow_guard_at_end ['a'] 1 (handleInputChange ['a'] 0 (initSession ['a']) ['a'])
      ['a','b'] (by decide) (by decide)).2.1⟩

/-- C5: the claim states that restart resets the pause state, the
pause-begin timestamp and the accumulated paused milliseconds; the code's
`restartTest` leaves all three untouched (a pause at time 1000 resumed at
3000 leaves 2000 accumulated paused ms after restart, and a restart during
a pause stays paused). -/
theorem restart_keeps_pause_state :
    (restartTest ['c','a','t'] (escKey ['c','a','t'] 1000
      (initSession ['c','a','t']))).isPaused = true ∧
    (restartTest ['c','a','t'] (escKey ['c','a','t'] 1000
      (initSession ['c','a','t']))).pausedAt = some 1000 ∧
    (restartTest ['c','a','t'] (escKey ['c','a','t'] 3000 (escKey ['c','a','t'] 1000
      (initSession ['c','a','t'])))).totalPausedMs = 2000 ∧
    (initSession ['c','a','t']).totalPausedMs = 0 ∧
    (initSession ['c','a','t']).isPaused = false ∧
    (initSession ['c','a','t']).pausedAt = none := by decide

/-- C6: deleting characters resets exactly the positions from the new
length to the old length minus one to `untouched` without re-evaluating
earlier positions, and appending then deleting back to the original buffer
recovers the prior verdict array (observed position-wise). -/
theorem deletion_resets_and_round_trips (text : List Char) (now now2 : Int) (s : Session)
    (tv : List Char) :
    (tv.length < s.userInput.length →
      (handleInputChange text now s tv).userInput = tv ∧
      (∀ i, i < tv.length →
        stateAt (handleInputChange text now s tv).charStates i = stateAt s.charStates i) ∧
      (∀ i, tv.length ≤ i → i < s.userInput.length →
        stateAt (handleInputChange text now s tv).charStates i = CharState.untouched)) ∧
    (verdictInvariant text s → s.userInput.length < tv.length →
      ((handleInputChange text now2 (handleInputChange text now s tv)
          s.userInput).userInput = s.userInput ∧
       ∀ i, stateAt (handleInputChange text now2 (handleInputChange text now s tv)
          s.userInput).charStates i = stateAt s.charStates i)) := by
  constructor
  · intro h
    obtain ⟨h1, h2, h3, _⟩ := handleInputChange_shrink text now s tv h
    exact ⟨h1, h2, h3⟩
  · intro hinv hgrow
    by_cases hin : s.userInput.length < text.length
    · obtain ⟨hu, hlow, happ, habove⟩ := stateAt_handleInputChange_grow text now s tv hin hgrow
      have hfvlen : s.userInput.length < (computeFinalValue text s.userInput tv).length :=
        length_computeFinalValue_lt text s.userInput tv hgrow
      have hshr : s.userInput.length < (handleInputChange text now s tv).userInput.length := by
        rw [hu]; exact hfvlen
      obtain ⟨g1, g2, g3, g4⟩ :=
        handleInputChange_shrink text now2 (handleInputChange text now s tv) s.userInput hshr
      refine ⟨g1, ?_⟩
      intro i
      rcases Nat.lt_or_ge i s.userInput.length with hi | hi
      · rw [g2 i hi, hlow i hi]
      · rcases Nat.lt_or_ge i (handleInputChange text now s tv).userInput.length with hi2 | hi2
        · rw [g3 i hi hi2]
          by_contra hne
          exact absurd ((hinv i).mp (fun hx => hne hx.symm)).1 (by omega)
        · rw [g4 i hi2, habove i (by rw [← hu]; omega)]
    · push_neg at hin
      rw [handleInputChange_overflow text now s tv hin hgrow]
      have hov2 : ¬(text.length ≤ ({ s with isTyping := false } : Session).userInput.length ∧
          ({ s with isTyping := false } : Session).userInput.length <
            s.userInput.length) := fun hc => absurd hc.2 (lt_irrefl _)
      have hfv : computeFinalValue text s.userInput s.userInput = s.userInput :=
        computeFinalValue_eq_of_le _ _ _ (le_refl _)
      constructor
      · rw [handleInputChange_userInput _ _ _ _ hov2]
        exact hfv
      · intro i
        rw [handleInputChange_charStates _ _ _ _ hov2]
        have hng : ¬({ s with isTyping := false } : Session).userInput.length <
            (computeFinalValue text ({ s with isTyping := false } : Session).userInput
              s.userInput).length := by
          show ¬s.userInput.length < (computeFinalValue text s.userInput s.userInput).length
          rw [hfv]
          omega
        rw [if_neg hng]
        show stateAt (clearRange s.charStates _) i = _
        rw [show (computeFinalValue text ({ s with isTyping := false } : Session).userInput
          s.userInput) = s.userInput from hfv]
        rw [Nat.sub_self, List.range'_zero]
        rfl

theorem deletion_resets_and_round_trips_witness :
    verdictInvariant ['c','a','t']
      (handleInputChange ['c','a','t'] 5 (initSession ['c','a','t']) ['c']) ∧
    (handleInputChange ['c','a','t'] 5 (initSession ['c','a','t'])
      ['c']).userInput.length < (['c','a'] : List Char).length ∧
    (handleInputChange ['c','a','t'] 7
      (handleInputChange ['c','a','t'] 6
        (handleInputChange ['c','a','t'] 5 (initSession ['c','a','t']) ['c']) ['c','a'])
      (handleInputChange ['c','a','t'] 5 (initSession ['c','a','t']) ['c']).userInput).userInput
      = (handleInputChange ['c','a','t'] 5 (initSession ['c','a','t']) ['c']).userInput :=
  ⟨verdictInvariant_of_reachable (Reachable.input 5 ['c'] Reachable.init), by decide,
   ((deletion_resets_and_round_trips ['c','a','t'] 6 7
      (handleInputChange ['c','a','t'] 5 (initSession ['c','a','t']) ['c']) ['c','a']).2
      (verdictInvariant_of_reachable (Reachable.input 5 ['c'] Reachable.init))
      (by decide)).1⟩

/-- A concrete session used to evaluate the CPM readout: two correct
characters typed, 30 seconds of active time elapsed. -/
def cpmSample : Session where
  charStates := [CharState.correct, CharState.correct, CharState.untouched,
    CharState.untouched]
  userInput := ['a','b']
  isTyping := true
  startTime := some 1
  elapsedTime := 30
  hasStarted := true
  isPaused := false
  pausedAt := none
  totalPausedMs := 0

/-- A concrete session with exactly one minute of active time elapsed. -/
def cpmSampleMinute : Session where
  charStates := [CharState.correct, CharState.correct, CharState.untouched,
    CharState.untouched]
  userInput := ['a','b']
  isTyping := true
  startTime := some 1
  elapsedTime := 60
  hasStarted := true
  isPaused := false
  pausedAt := none
  totalPausedMs := 0

/-- C7 counterexample: at 30 elapsed seconds (minutesElapsed = 1/2, far
above any small epsilon) with 2 correct characters, the code shows CPM 2
(denominator floored at one full minute) while the claimed formula
round(correctCount / minutesElapsed) gives 4. -/
theorem cpm_minute_floor_counterexample :
    cpmSample.elapsedTime = 30 ∧ correctCount cpmSample = 2 ∧
    cpmDisplay cpmSample = 2 ∧
    jsRound ((correctCount cpmSample : ℚ) / (cpmSample.elapsedTime / 60)) = 4 ∧
    (2 : ℤ) ≠ 4 := by
  have hc : correctCount cpmSample = 2 := by decide
  refine ⟨rfl, hc, ?_, ?_, by decide⟩
  · unfold cpmDisplay jsRound
    rw [hc, show cpmSample.elapsedTime = (30 : ℚ) from rfl]
    rw [show max (1 : ℚ) (30 / 60) = 1 from max_eq_left (by norm_num)]
    norm_num
  · unfold jsRound
    rw [hc, show cpmSample.elapsedTime = (30 : ℚ) from rfl]
    norm_num

/-- C7 corrected: the CPM readout is round(correctCount divided by the
larger of one minute and minutesElapsed) — the denominator is floored at
one whole minute, not at a small epsilon, distorting every sub-minute
reading; only once at least 60 seconds have elapsed does it equal
round(correctCount / minutesElapsed). -/
theorem cpm_exact_above_one_minute (s : Session) (h : (60 : ℚ) ≤ s.elapsedTime) :
    cpmDisplay s = jsRound ((correctCount s : ℚ) / (s.elapsedTime / 60)) := by
  unfold cpmDisplay
  rw [max_eq_right ((one_le_div (by norm_num : (0 : ℚ) < 60)).mpr h)]

theorem cpm_exact_above_one_minute_witness :
    (60 : ℚ) ≤ cpmSampleMinute.elapsedTime ∧
    cpmDisplay cpmSampleMinute =
      jsRound ((correctCount cpmSampleMinute : ℚ) / (cpmSampleMinute.elapsedTime / 60)) :=
  ⟨le_refl 60, cpm_exact_above_one_minute cpmSampleMinute (le_refl 60)⟩

/-- C8 counterexample: Escape in the idle initial state is not a no-op: it
sets the paused flag and records the pause-begin timestamp, and resuming
afterwards adds the idle pause interval to the accumulated paused
milliseconds. -/
theorem pause_in_idle_counterexample :
    (initSession ['c','a','t']).hasStarted = false ∧
    (initSession ['c','a','t']).isPaused = false ∧
    (escKey ['c','a','t'] 500 (initSession ['c','a','t'])).isPaused = true ∧
    (escKey ['c','a','t'] 500 (initSession ['c','a','t'])).pausedAt = some 500 ∧
    (escKey ['c','a','t'] 800 (escKey ['c','a','t'] 500
      (initSession ['c','a','t']))).totalPausedMs = 300 ∧
    (initSession ['c','a','t']).totalPausedMs = 0 := by decide

/-- C8 corrected: a pause request (Escape while unpaused) is accepted in
every phase, including idle and finished: it records the pause-begin
timestamp and sets the paused flag. A resume while the session is complete
only clears the paused flag. Neither direction of the toggle ever changes
the start epoch. -/
theorem escKey_unguarded_behavior (text : List Char) (now : Int) (s : Session) :
    (s.isPaused = false →
      escKey text now s = { s with isPaused := true, pausedAt := some now }) ∧
    (s.isPaused = true → text.length ≤ s.userInput.length →
      escKey text now s = { s with isPaused := false }) ∧
    (escKey text now s).startTime = s.startTime := by
  refine ⟨?_, ?_, ?_⟩
  · intro hp
    unfold escKey
    rw [if_pos (by simp [hp])]
  · intro hp hfin
    unfold escKey resumeFromPause
    rw [if_neg (by simp [hp]), if_pos hfin]
  · unfold escKey resumeFromPause
    split
    · rfl
    · split
      · rfl
      · cases hpa : s.pausedAt
        · simp only []
          split_ifs <;> rfl
        · simp only []
          split_ifs <;> rfl

theorem escKey_unguarded_behavior_witness :
    (initSession ['a']).isPaused = false ∧
    escKey ['a'] 7 (initSession ['a']) =
      { initSession ['a'] with isPaused := true, pausedAt := some 7 } :=
  ⟨rfl, (escKey_unguarded_behavior ['a'] 7 (initSession ['a'])).1 rfl⟩

/-- C9 counterexample: after typing one character against a passage with a
newline, supplying a wrong character auto-substitutes the buffer (a space
is inserted); supplying the identical value again shrinks the stored
buffer, resets a verdict to `untouched` and moves the cursor — the second
call with the same value is not a no-op. -/
theorem applyInput_not_idempotent_counterexample :
    (handleInputChange ['a','\n','b'] 0
      (handleInputChange ['a','\n','b'] 0 (initSession ['a','\n','b']) ['a'])
      ['a','x']).userInput = ['a',' ','x'] ∧
    (handleInputChange ['a','\n','b'] 0
      (handleInputChange ['a','\n','b'] 0
        (handleInputChange ['a','\n','b'] 0 (initSession ['a','\n','b']) ['a'])
        ['a','x'])
      ['a','x']).userInput = ['a','x'] ∧
    (handleInputChange ['a','\n','b'] 0
      (handleInputChange ['a','\n','b'] 0 (initSession ['a','\n','b']) ['a'])
      ['a','x']).charStates
      = [CharState.correct, CharState.correct, CharState.incorrect] ∧
    (handleInputChange ['a','\n','b'] 0
      (handleInputChange ['a','\n','b'] 0
        (handleInputChange ['a','\n','b'] 0 (initSession ['a','\n','b']) ['a'])
        ['a','x'])
      ['a','x']).charStates
      = [CharState.correct, CharState.correct, CharState.untouched] := by decide

/-- C9 corrected: calling `applyInput` twice with the same buffer value
produces no change the second time, provided the first call stored exactly
the supplied value (no newline auto-substitution rewrote it); when the
first call rewrote the buffer, the second call shrinks it back and resets
the affected verdicts. -/
theorem applyInput_idempotent_of_stored (text : List Char) (now now2 : Int) (s : Session)
    (tv : List Char) (h : (handleInputChange text now s tv).userInput = tv) :
    handleInputChange text now2 (handleInputChange text now s tv) tv
      = handleInputChange text now s tv := by
  apply handleInputChange_self
  · exact h
  · intro hlen
    by_cases hov : text.length ≤ s.userInput.length ∧ s.userInput.length < tv.length
    · exfalso
      rw [handleInputChange_overflow _ _ _ _ hov.1 hov.2] at h
      have h2 := hov.2
      have he : s.userInput = tv := h
      rw [he] at h2
      exact absurd h2 (lt_irrefl _)
    · exact handleInputChange_hasStarted text now s tv hov hlen

theorem applyInput_idempotent_of_stored_witness :
    (handleInputChange ['c','a','t'] 3 (initSession ['c','a','t']) ['c']).userInput = ['c'] ∧
    handleInputChange ['c','a','t'] 4
        (handleInputChange ['c','a','t'] 3 (initSession ['c','a','t']) ['c']) ['c']
      = handleInputChange ['c','a','t'] 3 (initSession ['c','a','t']) ['c'] :=
  ⟨by decide,
    applyInput_idempotent_of_stored ['c','a','t'] 3 4 (initSession ['c','a','t']) ['c']
      (by decide)⟩

/-- C10 counterexample: after an overflowing input on a two-character
passage the buffer holds 4 characters while the verdict array still has
length 2; a subsequent deletion writes `untouched` at indices 2 and 3,
growing the verdict array to length 4 — longer than the passage. -/
theorem verdict_array_growth_counterexample :
    (handleInputChange ['a','b'] 0 (initSession ['a','b'])
      ['a','b','c','d']).charStates.length = 2 ∧
    (handleInputChange ['a','b'] 0 (initSession ['a','b'])
      ['a','b','c','d']).userInput.length = 4 ∧
    (handleInputChange ['a','b'] 1 (handleInputChange ['a','b'] 0 (initSession ['a','b'])
      ['a','b','c','d']) []).charStates.length = 4 ∧
    (['a','b'] : List Char).length = 2 := by decide

/-- C10 corrected: `correct`/`incorrect` verdicts are only ever written at
indices below the passage length (the append loop is bounds-guarded), but
the deletion loop is not: once the buffer has grown past the passage, a
deletion extends the verdict array beyond the passage length. As long as
the stored buffer has not exceeded the passage length, one `applyInput`
call keeps the verdict-array length equal to the passage length and every
index at or beyond the passage length reads `untouched`. -/
theorem charStates_length_preserved (text : List Char) (now : Int) (s : Session)
    (tv : List Char) (hlen : s.charStates.length = text.length)
    (hbuf : s.userInput.length ≤ text.length) :
    (handleInputChange text now s tv).charStates.length = text.length ∧
    (∀ i, text.length ≤ i →
      stateAt (handleInputChange text now s tv).charStates i = CharState.untouched) := by
  have hmain : (handleInputChange text now s tv).charStates.length = text.length := by
    by_cases hov : text.length ≤ s.userInput.length ∧ s.userInput.length < tv.length
    · rw [handleInputChange_overflow _ _ _ _ hov.1 hov.2]
      exact hlen
    · rw [handleInputChange_charStates text now s tv hov]
      split
      · rw [length_setVerdicts_eq text (computeFinalValue text s.userInput tv)
          s.charStates _ (by omega)]
        exact hlen
      · next hng =>
        rw [length_clearRange_eq s.charStates _ ?_]
        · exact hlen
        · intro k hk
          rw [List.mem_range'_1] at hk
          omega
  refine ⟨hmain, ?_⟩
  intro i hi
  unfold stateAt
  rw [List.getD_eq_getElem?_getD, List.getElem?_eq_none (by rw [hmain]; omega)]
  rfl

theorem charStates_length_preserved_witness :
    (initSession ['a','b']).charStates.length = (['a','b'] : List Char).length ∧
    (initSession ['a','b']).userInput.length ≤ (['a','b'] : List Char).length ∧
    (handleInputChange ['a','b'] 2 (initSession ['a','b'])
      ['a']).charStates.length = (['a','b'] : List Char).length :=
  ⟨by decide, by decide,
    (charStates_length_preserved ['a','b'] 2 (initSession ['a','b']) ['a']
      (by decide) (by decide)).1⟩

end FreshType
